import Mathlib

/-!
Shallow embedding of `src/comparison.py`: the module-record data model, the
record-construction half of `get_modules_list` (name/version split and
build-time parsing), and the comparator `compare_modules`.

Strings are Lean `String`s (lists of characters); Python `datetime` values are
embedded as the order-preserving encoding `encodeDT` of their six fields into
`Nat` (all fields are below 100 except the year, which is the most significant
digit group, so equality and `<` of datetimes coincide with equality and `<`
of the encodings).  Digits are ASCII digits.  Python's iteration over the set
intersection of the two grouping key sets is determinised as iteration over
the first grouping's keys (in insertion order) restricted to keys of the
second; every claim proved below is insensitive to that order.
-/

/-- One entry in a remote module catalog (dataclass `ModuleInfo` in
`comparison.py`): base name, version, build time, full catalog name. -/
structure ModuleInfo where
  name : String
  version : String
  build_time : Nat
  full_name : String
deriving DecidableEq, Repr

/-- `k in d` for an insertion-ordered dictionary embedded as a key-value list. -/
def containsKey {β : Type} (d : List (String × β)) (k : String) : Bool :=
  d.any (fun p => p.1 == k)

/-- `d[k]` (as an `Option`): the first entry with key `k`. -/
def dictLookup {β : Type} (d : List (String × β)) (k : String) : Option β :=
  (d.find? (fun p => p.1 == k)).map (fun p => p.2)

/-- `d[k] = v` on a Python dict: overwrite the value at an existing key in
place (the key keeps its insertion position), otherwise append the new key at
the end.  Embedded as first-match replacement on the key-value list, which
agrees with the Python dict because keys in the list are unique. -/
def dictInsert {β : Type} : List (String × β) → String → β → List (String × β)
  | [], k, v => [(k, v)]
  | p :: d, k, v => if p.1 == k then (k, v) :: d else p :: dictInsert d k v

/-- `{module.full_name: module for module in ms}` (lines 96-97). -/
def buildDict (ms : List ModuleInfo) : List (String × ModuleInfo) :=
  ms.foldl (fun d m => dictInsert d m.full_name m) []

/-- One step of the grouping loop (lines 110-113 / 115-118): ensure the key
`m.name` is present (a fresh key goes to the end of the insertion order),
then append `m` to its list. -/
def groupAdd : List (String × List ModuleInfo) → ModuleInfo →
    List (String × List ModuleInfo)
  | [], m => [(m.name, [m])]
  | p :: d, m => if p.1 == m.name then (p.1, p.2 ++ [m]) :: d else p :: groupAdd d m

/-- `modules_by_name` built by the grouping loop. -/
def groupByName (ms : List ModuleInfo) : List (String × List ModuleInfo) :=
  ms.foldl groupAdd []

/-- `d[k]` for a grouping dict (the code only reads keys it knows are
present; absent keys give `[]`). -/
def groupGet (d : List (String × List ModuleInfo)) (k : String) :
    List ModuleInfo :=
  (dictLookup d k).getD []

/-- The ordered pair appended on lines 125-128: the record with the strictly
smaller build time first. -/
def orderPair (m1 m2 : ModuleInfo) : ModuleInfo × ModuleInfo :=
  if m1.build_time < m2.build_time then (m1, m2) else (m2, m1)

/-- The pair-emission condition of lines 124-128: emit an ordered pair when
the versions agree and the build times differ, otherwise nothing. -/
def emitPair (mod1 mod2 : ModuleInfo) : Option (ModuleInfo × ModuleInfo) :=
  if mod1.version == mod2.version && mod1.build_time != mod2.build_time then
    some (orderPair mod1 mod2)
  else none

/-- Result triple of `compare_modules`. -/
structure CompareResult where
  onlyA : List ModuleInfo
  onlyB : List ModuleInfo
  mismatched : List (ModuleInfo × ModuleInfo)
deriving DecidableEq, Repr

/-- `compare_modules` (lines 86-130): presence test keyed on `full_name`
with per-side dicts, then the per-name cross product emitting build-time
mismatches ordered older-first. -/
def compare_modules (modules1 modules2 : List ModuleInfo) : CompareResult :=
  let modules_dict1 := buildDict modules1
  let modules_dict2 := buildDict modules2
  let unique_modules1 :=
    (modules_dict1.filter (fun p => !(containsKey modules_dict2 p.1))).map
      (fun p => p.2)
  let unique_modules2 :=
    (modules_dict2.filter (fun p => !(containsKey modules_dict1 p.1))).map
      (fun p => p.2)
  let modules_by_name1 := groupByName modules1
  let modules_by_name2 := groupByName modules2
  let sharedNames :=
    (modules_by_name1.map (fun p => p.1)).filter
      (fun n => containsKey modules_by_name2 n)
  let newer_modules := sharedNames.flatMap (fun n =>
    (groupGet modules_by_name1 n).flatMap (fun mod1 =>
      (groupGet modules_by_name2 n).filterMap (fun mod2 => emitPair mod1 mod2)))
  ⟨unique_modules1, unique_modules2, newer_modules⟩

/-! ### Dictionary lemmas -/

theorem containsKey_iff {β : Type} (d : List (String × β)) (k : String) :
    containsKey d k = true ↔ ∃ p ∈ d, p.1 = k := by
  simp [containsKey, List.any_eq_true]

theorem dictLookup_cons {β : Type} (p : String × β) (d : List (String × β)) (k : String) :
    dictLookup (p :: d) k = if p.1 = k then some p.2 else dictLookup d k := by
  by_cases h : p.1 = k <;> simp [dictLookup, List.find?_cons, h]

theorem containsKey_cons {β : Type} (p : String × β) (d : List (String × β)) (k : String) :
    containsKey (p :: d) k = (p.1 == k || containsKey d k) := by
  simp [containsKey]

theorem dictLookup_dictInsert {β : Type} (d : List (String × β)) (k k' : String) (v : β) :
    dictLookup (dictInsert d k v) k' = if k = k' then some v else dictLookup d k' := by
  induction d with
  | nil => by_cases h : k = k' <;> simp [dictInsert, dictLookup_cons, dictLookup, h]
  | cons p d ih =>
    by_cases h : p.1 = k
    · have e : dictInsert (p :: d) k v = (k, v) :: d := by simp [dictInsert, h]
      rw [e, dictLookup_cons, dictLookup_cons]
      by_cases h2 : k = k'
      · simp [h2]
      · have hp : ¬ p.1 = k' := by rw [h]; exact h2
        simp [h2, hp]
    · have e : dictInsert (p :: d) k v = p :: dictInsert d k v := by simp [dictInsert, h]
      rw [e, dictLookup_cons, dictLookup_cons]
      by_cases h3 : p.1 = k'
      · have h2 : ¬ k = k' := fun he => h (by rw [he]; exact h3)
        simp [h3, h2]
      · simp [h3, ih]

theorem mem_dictInsert {β : Type} (d : List (String × β)) (k : String) (v : β)
    (q : String × β) (hq : q ∈ dictInsert d k v) : q ∈ d ∨ q = (k, v) := by
  induction d with
  | nil => simp [dictInsert] at hq; simp [hq]
  | cons p d ih =>
    by_cases h : p.1 = k
    · simp [dictInsert, h] at hq
      rcases hq with hq | hq
      · right; simp [hq]
      · left; simp [hq]
    · simp [dictInsert, h] at hq
      rcases hq with hq | hq
      · left; simp [hq]
      · rcases ih hq with h1 | h1
        · left; simp [h1]
        · right; exact h1

theorem containsKey_dictInsert {β : Type} (d : List (String × β)) (k k' : String) (v : β) :
    containsKey (dictInsert d k v) k' = (containsKey d k' || k == k') := by
  induction d with
  | nil => simp [dictInsert, containsKey]
  | cons p d ih =>
    by_cases h : p.1 = k
    · have e : dictInsert (p :: d) k v = (k, v) :: d := by simp [dictInsert, h]
      rw [e, containsKey_cons, containsKey_cons, h]
      by_cases h2 : k = k' <;> simp [h2]
    · have e : dictInsert (p :: d) k v = p :: dictInsert d k v := by simp [dictInsert, h]
      rw [e, containsKey_cons, containsKey_cons, ih, Bool.or_assoc]

theorem keys_dictInsert {β : Type} (d : List (String × β)) (k : String) (v : β) :
    (dictInsert d k v).map Prod.fst =
      if containsKey d k then d.map Prod.fst else d.map Prod.fst ++ [k] := by
  induction d with
  | nil => simp [dictInsert, containsKey]
  | cons p d ih =>
    by_cases h : p.1 = k
    · have e : dictInsert (p :: d) k v = (k, v) :: d := by simp [dictInsert, h]
      have hc : containsKey (p :: d) k = true := by rw [containsKey_cons]; simp [h]
      rw [e, hc]
      simp [h]
    · have e : dictInsert (p :: d) k v = p :: dictInsert d k v := by simp [dictInsert, h]
      have hc : containsKey (p :: d) k = containsKey d k := by
        rw [containsKey_cons]; simp [h]
      rw [e, hc, List.map_cons, ih]
      by_cases h2 : containsKey d k <;> simp [h2]

/-! ### `buildDict` lemmas (the `full_name`-keyed presence dictionaries) -/

theorem mem_buildDict_aux (ms : List ModuleInfo) (acc : List (String × ModuleInfo))
    (p : String × ModuleInfo)
    (hp : p ∈ ms.foldl (fun d m => dictInsert d m.full_name m) acc) :
    (p.1 = p.2.full_name ∧ p.2 ∈ ms) ∨ p ∈ acc := by
  induction ms generalizing acc with
  | nil => right; simpa using hp
  | cons m ms ih =>
    rcases ih (dictInsert acc m.full_name m) hp with h | h
    · left; exact ⟨h.1, List.mem_cons_of_mem _ h.2⟩
    · rcases mem_dictInsert acc m.full_name m p h with h1 | h1
      · right; exact h1
      · left; subst h1; simp

theorem mem_buildDict (ms : List ModuleInfo) (p : String × ModuleInfo)
    (hp : p ∈ buildDict ms) : p.1 = p.2.full_name ∧ p.2 ∈ ms := by
  rcases mem_buildDict_aux ms [] p hp with h | h
  · exact h
  · simp at h

theorem containsKey_buildDict_aux (ms : List ModuleInfo)
    (acc : List (String × ModuleInfo)) (k : String) :
    containsKey (ms.foldl (fun d m => dictInsert d m.full_name m) acc) k =
      (containsKey acc k || ms.any (fun m => m.full_name == k)) := by
  induction ms generalizing acc with
  | nil => simp
  | cons m ms ih =>
    simp only [List.foldl_cons, List.any_cons]
    rw [ih, containsKey_dictInsert, Bool.or_assoc]

theorem containsKey_buildDict (ms : List ModuleInfo) (k : String) :
    containsKey (buildDict ms) k = true ↔ ∃ m ∈ ms, m.full_name = k := by
  rw [buildDict, containsKey_buildDict_aux]
  simp [containsKey, List.any_eq_true]

theorem dictLookup_buildDict_aux (ms : List ModuleInfo)
    (acc : List (String × ModuleInfo)) (k : String) :
    dictLookup (ms.foldl (fun d m => dictInsert d m.full_name m) acc) k =
      ((ms.reverse.find? (fun m => m.full_name == k)).map id).or (dictLookup acc k) := by
  induction ms generalizing acc with
  | nil => simp
  | cons m ms ih =>
    simp only [List.foldl_cons, List.reverse_cons]
    rw [ih, dictLookup_dictInsert, List.find?_append]
    by_cases h : m.full_name = k
    · simp [List.find?, h, Option.or_assoc]
    · have hb : (m.full_name == k) = false := by simp [h]
      simp [List.find?, hb, h, Option.or_assoc]

theorem dictLookup_buildDict (ms : List ModuleInfo) (k : String) :
    dictLookup (buildDict ms) k = ms.reverse.find? (fun m => m.full_name == k) := by
  rw [buildDict, dictLookup_buildDict_aux]
  simp [dictLookup]

theorem keys_nodup_foldl (ms : List ModuleInfo) (acc : List (String × ModuleInfo))
    (h : (acc.map Prod.fst).Nodup) :
    (((ms.foldl (fun d m => dictInsert d m.full_name m) acc)).map Prod.fst).Nodup := by
  induction ms generalizing acc with
  | nil => simpa using h
  | cons m ms ih =>
    apply ih
    rw [keys_dictInsert]
    by_cases hc : containsKey acc m.full_name
    · simpa [hc] using h
    · have hm : m.full_name ∉ acc.map Prod.fst := by
        intro hmem
        rcases List.mem_map.mp hmem with ⟨p, hp, hpe⟩
        exact absurd ((containsKey_iff acc m.full_name).mpr ⟨p, hp, hpe⟩) (by simp [hc])
      simp [hc, List.nodup_append, h, hm]

theorem keys_buildDict_nodup (ms : List ModuleInfo) :
    ((buildDict ms).map Prod.fst).Nodup :=
  keys_nodup_foldl ms [] (by simp)

theorem dictLookup_of_mem_nodup {β : Type} (d : List (String × β)) (p : String × β)
    (hd : (d.map Prod.fst).Nodup) (hp : p ∈ d) : dictLookup d p.1 = some p.2 := by
  induction d with
  | nil => simp at hp
  | cons q d ih =>
    rw [List.map_cons, List.nodup_cons] at hd
    rcases List.mem_cons.mp hp with h | h
    · subst h; simp [dictLookup_cons]
    · rw [dictLookup_cons]
      have hq : ¬ q.1 = p.1 := by
        intro he
        apply hd.1
        rw [he]
        exact List.mem_map.mpr ⟨p, h, rfl⟩
      simp only [hq, if_false]
      exact ih hd.2 h

/-! ### Presence-test characterization -/

theorem mem_onlyA_iff (A B : List ModuleInfo) (r : ModuleInfo) :
    r ∈ (compare_modules A B).onlyA ↔
      (r.full_name, r) ∈ buildDict A ∧ ¬ ∃ b ∈ B, b.full_name = r.full_name := by
  show r ∈ ((buildDict A).filter fun p => !(containsKey (buildDict B) p.1)).map
      (fun p => p.2) ↔ _
  constructor
  · intro h
    rcases List.mem_map.mp h with ⟨p, hp, he⟩
    rcases List.mem_filter.mp hp with ⟨hpd, hpc⟩
    have hkey := mem_buildDict A p hpd
    have hpr : p = (r.full_name, r) := by
      cases p
      simp at he hkey ⊢
      exact ⟨by rw [hkey.1, he], he⟩
    constructor
    · rw [← hpr]; exact hpd
    · rintro ⟨b, hb, hbe⟩
      have : containsKey (buildDict B) p.1 = true :=
        (containsKey_buildDict B p.1).mpr ⟨b, hb, by rw [hbe, ← he, hkey.1]⟩
      simp [this] at hpc
  · rintro ⟨hmem, hnot⟩
    apply List.mem_map.mpr
    refine ⟨(r.full_name, r), List.mem_filter.mpr ⟨hmem, ?_⟩, rfl⟩
    have : containsKey (buildDict B) r.full_name = false := by
      rcases Bool.eq_false_or_eq_true (containsKey (buildDict B) r.full_name) with h | h
      · rcases (containsKey_buildDict B r.full_name).mp h with ⟨b, hb, hbe⟩
        exact absurd ⟨b, hb, hbe⟩ hnot
      · exact h
    simp [this]

theorem head?_filter_eq_find? (f : ModuleInfo → Bool) (l : List ModuleInfo) :
    (l.filter f).head? = l.find? f := by
  induction l with
  | nil => rfl
  | cons x l ih => by_cases h : f x <;> simp [List.find?_cons, h, ih]

theorem getLast?_filter_eq_find?_reverse (f : ModuleInfo → Bool) (l : List ModuleInfo) :
    (l.filter f).getLast? = l.reverse.find? f := by
  rw [List.getLast?_eq_head?_reverse, ← List.filter_reverse, head?_filter_eq_find?]

theorem onlyA_last_match (A B : List ModuleInfo) (r : ModuleInfo)
    (hr : r ∈ (compare_modules A B).onlyA) :
    (A.filter (fun m => m.full_name == r.full_name)).getLast? = some r := by
  have h1 := ((mem_onlyA_iff A B r).mp hr).1
  have h2 : dictLookup (buildDict A) r.full_name = some r :=
    dictLookup_of_mem_nodup (buildDict A) (r.full_name, r) (keys_buildDict_nodup A) h1
  rw [getLast?_filter_eq_find?_reverse, ← dictLookup_buildDict, h2]

theorem onlyA_names_nodup (A B : List ModuleInfo) :
    ((compare_modules A B).onlyA.map (fun m => m.full_name)).Nodup := by
  show ((((buildDict A).filter fun p => !(containsKey (buildDict B) p.1)).map
      (fun p => p.2)).map (fun m => m.full_name)).Nodup
  rw [List.map_map]
  have he : (((buildDict A).filter fun p => !(containsKey (buildDict B) p.1)).map
      ((fun m => m.full_name) ∘ fun p => p.2)) =
      (((buildDict A).filter fun p => !(containsKey (buildDict B) p.1)).map Prod.fst) := by
    apply List.map_congr_left
    intro p hp
    have := mem_buildDict A p (List.mem_filter.mp hp).1
    simp [Function.comp, this.1]
  rw [he]
  exact ((List.filter_sublist _).map Prod.fst).nodup (keys_buildDict_nodup A)

/-! ### Claim theorems: presence (C3, C7, C8, C9) -/

/-- C3: for every pair of input lists, every record in `onlyA` has a
`fullName` absent from B's records, every record in `onlyB` has a `fullName`
absent from A's records, and the `fullName` sets of the two only-lists are
disjoint. -/
theorem claim_C3_only_lists (A B : List ModuleInfo) :
    (∀ r ∈ (compare_modules A B).onlyA, ∀ b ∈ B, r.full_name ≠ b.full_name) ∧
    (∀ s ∈ (compare_modules A B).onlyB, ∀ a ∈ A, s.full_name ≠ a.full_name) ∧
    (∀ r ∈ (compare_modules A B).onlyA, ∀ s ∈ (compare_modules A B).onlyB,
      r.full_name ≠ s.full_name) := by
  refine ⟨?_, ?_, ?_⟩
  · intro r hr b hb he
    exact ((mem_onlyA_iff A B r).mp hr).2 ⟨b, hb, he.symm⟩
  · intro s hs a ha he
    have hs' : s ∈ (compare_modules B A).onlyA := hs
    exact ((mem_onlyA_iff B A s).mp hs').2 ⟨a, ha, he.symm⟩
  · intro r hr s hs he
    have hs' : s ∈ (compare_modules B A).onlyA := hs
    have h2 := (mem_onlyA_iff B A s).mp hs'
    have hsB : s ∈ B := (mem_buildDict B _ h2.1).2
    exact ((mem_onlyA_iff A B r).mp hr).2 ⟨s, hsB, he.symm⟩

/-- Witness for C3 at a concrete input: `A = [a/1]`, `B = [b/1]`. -/
theorem claim_C3_only_lists_witness :
    ModuleInfo.full_name ⟨"a", "1", 0, "a/1"⟩ ≠
      ModuleInfo.full_name ⟨"b", "1", 0, "b/1"⟩ :=
  (claim_C3_only_lists [⟨"a", "1", 0, "a/1"⟩] [⟨"b", "1", 0, "b/1"⟩]).2.2
    ⟨"a", "1", 0, "a/1"⟩ (by decide) ⟨"b", "1", 0, "b/1"⟩ (by decide)

/-- C7: presence classification is symmetric under swapping the two input
lists: `compare(A,B).onlyA = compare(B,A).onlyB` and vice versa. -/
theorem claim_C7_presence_swap (A B : List ModuleInfo) :
    (compare_modules A B).onlyA = (compare_modules B A).onlyB ∧
    (compare_modules A B).onlyB = (compare_modules B A).onlyA :=
  ⟨rfl, rfl⟩

/-- C8: the comparator is a pure, deterministic function of its two inputs:
equal input lists give identical results. -/
theorem claim_C8_deterministic (A B A' B' : List ModuleInfo)
    (hA : A = A') (hB : B = B') :
    compare_modules A B = compare_modules A' B' := by
  rw [hA, hB]

/-- Witness for C8 at a concrete input. -/
theorem claim_C8_deterministic_witness :
    ([⟨"gcc", "11.2", 5, "gcc/11.2"⟩] : List ModuleInfo) = [⟨"gcc", "11.2", 5, "gcc/11.2"⟩] ∧
    ([] : List ModuleInfo) = [] ∧
    compare_modules [⟨"gcc", "11.2", 5, "gcc/11.2"⟩] [] =
      compare_modules [⟨"gcc", "11.2", 5, "gcc/11.2"⟩] [] :=
  ⟨rfl, rfl, claim_C8_deterministic [⟨"gcc", "11.2", 5, "gcc/11.2"⟩] []
    [⟨"gcc", "11.2", 5, "gcc/11.2"⟩] [] rfl rfl⟩

/-- C9: for every pair of input lists, the presence test is last-write-wins
per `fullName`: every record in an only-list is the last record of its input
list with that `fullName`, and each only-list holds at most one record per
`fullName`. -/
theorem claim_C9_last_write_wins (A B : List ModuleInfo) :
    (∀ r ∈ (compare_modules A B).onlyA,
      (A.filter (fun m => m.full_name == r.full_name)).getLast? = some r) ∧
    (∀ s ∈ (compare_modules A B).onlyB,
      (B.filter (fun m => m.full_name == s.full_name)).getLast? = some s) ∧
    ((compare_modules A B).onlyA.map (fun m => m.full_name)).Nodup ∧
    ((compare_modules A B).onlyB.map (fun m => m.full_name)).Nodup :=
  ⟨fun r hr => onlyA_last_match A B r hr,
    fun s hs => onlyA_last_match B A s hs,
    onlyA_names_nodup A B, onlyA_names_nodup B A⟩

/-- Witness for C9 at a concrete input with a duplicated `fullName` (and an
empty second host): only the second `x/1` record (build time 2) is the one
the presence test retains. -/
theorem claim_C9_last_write_wins_witness :
    (([⟨"x", "1", 1, "x/1"⟩, ⟨"x", "1", 2, "x/1"⟩] : List ModuleInfo).filter
        (fun m => m.full_name == ModuleInfo.full_name ⟨"x", "1", 2, "x/1"⟩)).getLast? =
      some ⟨"x", "1", 2, "x/1"⟩ :=
  (claim_C9_last_write_wins [⟨"x", "1", 1, "x/1"⟩, ⟨"x", "1", 2, "x/1"⟩] []).1
    ⟨"x", "1", 2, "x/1"⟩ (by decide)

/-! ### Grouping lemmas -/

theorem groupGet_cons (p : String × List ModuleInfo) (d : List (String × List ModuleInfo))
    (k : String) :
    groupGet (p :: d) k = if p.1 = k then p.2 else groupGet d k := by
  by_cases h : p.1 = k <;> simp [groupGet, dictLookup_cons, h]

theorem groupGet_groupAdd (d : List (String × List ModuleInfo)) (m : ModuleInfo)
    (k : String) :
    groupGet (groupAdd d m) k =
      if m.name = k then groupGet d k ++ [m] else groupGet d k := by
  induction d with
  | nil =>
    by_cases h : m.name = k <;>
      simp [groupAdd, groupGet, dictLookup_cons, dictLookup, h]
  | cons p d ih =>
    by_cases h : p.1 = m.name
    · have e : groupAdd (p :: d) m = (p.1, p.2 ++ [m]) :: d := by simp [groupAdd, h]
      rw [e, groupGet_cons, groupGet_cons]
      by_cases h2 : p.1 = k
      · have hm : m.name = k := by rw [← h]; exact h2
        simp [h2, hm]
      · have hm : ¬ m.name = k := by rw [← h]; exact h2
        simp [h2, hm]
    · have e : groupAdd (p :: d) m = p :: groupAdd d m := by simp [groupAdd, h]
      rw [e, groupGet_cons, groupGet_cons]
      by_cases h2 : p.1 = k
      · have hm : ¬ m.name = k := fun he => h (by rw [h2, he])
        simp [h2, hm]
      · simp [h2, ih]

theorem groupGet_foldl (ms : List ModuleInfo) (acc : List (String × List ModuleInfo))
    (k : String) :
    groupGet (ms.foldl groupAdd acc) k =
      groupGet acc k ++ ms.filter (fun m => m.name == k) := by
  induction ms generalizing acc with
  | nil => simp
  | cons m ms ih =>
    simp only [List.foldl_cons, List.filter_cons]
    rw [ih, groupGet_groupAdd]
    by_cases h : m.name = k
    · simp [h, List.append_assoc]
    · simp [h]

theorem groupGet_groupByName (ms : List ModuleInfo) (k : String) :
    groupGet (groupByName ms) k = ms.filter (fun m => m.name == k) := by
  rw [groupByName, groupGet_foldl]
  simp [groupGet, dictLookup]

theorem containsKey_groupAdd (d : List (String × List ModuleInfo)) (m : ModuleInfo)
    (k : String) :
    containsKey (groupAdd d m) k = (containsKey d k || m.name == k) := by
  induction d with
  | nil => simp [groupAdd, containsKey]
  | cons p d ih =>
    by_cases h : p.1 = m.name
    · have e : groupAdd (p :: d) m = (p.1, p.2 ++ [m]) :: d := by simp [groupAdd, h]
      rw [e, containsKey_cons, containsKey_cons, ← h]
      by_cases h2 : p.1 = k <;> simp [h2]
    · have e : groupAdd (p :: d) m = p :: groupAdd d m := by simp [groupAdd, h]
      rw [e, containsKey_cons, containsKey_cons, ih, Bool.or_assoc]

theorem containsKey_groupByName_aux (ms : List ModuleInfo)
    (acc : List (String × List ModuleInfo)) (k : String) :
    containsKey (ms.foldl groupAdd acc) k =
      (containsKey acc k || ms.any (fun m => m.name == k)) := by
  induction ms generalizing acc with
  | nil => simp
  | cons m ms ih =>
    simp only [List.foldl_cons, List.any_cons]
    rw [ih, containsKey_groupAdd, Bool.or_assoc]

theorem containsKey_groupByName (ms : List ModuleInfo) (k : String) :
    containsKey (groupByName ms) k = true ↔ ∃ m ∈ ms, m.name = k := by
  rw [groupByName, containsKey_groupByName_aux]
  simp [containsKey, List.any_eq_true]

theorem keys_groupAdd (d : List (String × List ModuleInfo)) (m : ModuleInfo) :
    (groupAdd d m).map Prod.fst =
      if containsKey d m.name then d.map Prod.fst else d.map Prod.fst ++ [m.name] := by
  induction d with
  | nil => simp [groupAdd, containsKey]
  | cons p d ih =>
    by_cases h : p.1 = m.name
    · have e : groupAdd (p :: d) m = (p.1, p.2 ++ [m]) :: d := by simp [groupAdd, h]
      have hc : containsKey (p :: d) m.name = true := by rw [containsKey_cons]; simp [h]
      rw [e, hc]
      simp
    · have e : groupAdd (p :: d) m = p :: groupAdd d m := by simp [groupAdd, h]
      have hc : containsKey (p :: d) m.name = containsKey d m.name := by
        rw [containsKey_cons]; simp [h]
      rw [e, hc, List.map_cons, ih]
      by_cases h2 : containsKey d m.name <;> simp [h2]

theorem keys_groupByName_nodup (ms : List ModuleInfo) :
    ((groupByName ms).map Prod.fst).Nodup := by
  suffices h : ∀ acc : List (String × List ModuleInfo), (acc.map Prod.fst).Nodup →
      ((ms.foldl groupAdd acc).map Prod.fst).Nodup by
    exact h [] (by simp)
  induction ms with
  | nil => intro acc h; simpa using h
  | cons m ms ih =>
    intro acc h
    simp only [List.foldl_cons]
    apply ih
    rw [keys_groupAdd]
    by_cases hc : containsKey acc m.name
    · simpa [hc] using h
    · have hm : m.name ∉ acc.map Prod.fst := by
        intro hmem
        rcases List.mem_map.mp hmem with ⟨p, hp, hpe⟩
        exact absurd ((containsKey_iff acc m.name).mpr ⟨p, hp, hpe⟩) (by simp [hc])
      simp [hc, List.nodup_append, h, hm]

/-! ### Mismatch-test characterization -/

theorem emitPair_eq_some_iff (a b : ModuleInfo) (p : ModuleInfo × ModuleInfo) :
    emitPair a b = some p ↔
      a.version = b.version ∧ a.build_time ≠ b.build_time ∧ p = orderPair a b := by
  unfold emitPair
  by_cases hv : a.version = b.version
  · by_cases ht : a.build_time = b.build_time
    · have hc : (a.version == b.version && a.build_time != b.build_time) = false := by
        simp [hv, ht]
      rw [hc]
      simp [ht]
    · have hc : (a.version == b.version && a.build_time != b.build_time) = true := by
        simp [hv, ht]
      rw [hc]
      simp [hv, ht, eq_comm]
  · have hc : (a.version == b.version && a.build_time != b.build_time) = false := by
      simp [hv]
    rw [hc]
    simp [hv]

theorem mismatched_eq (A B : List ModuleInfo) :
    (compare_modules A B).mismatched =
      (((groupByName A).map (fun p => p.1)).filter
          (fun n => containsKey (groupByName B) n)).flatMap
        (fun n => (A.filter (fun m => m.name == n)).flatMap (fun mod1 =>
          (B.filter (fun m => m.name == n)).filterMap (fun mod2 => emitPair mod1 mod2))) := by
  show ((((groupByName A).map (fun p => p.1)).filter
      (fun n => containsKey (groupByName B) n)).flatMap
    (fun n => (groupGet (groupByName A) n).flatMap (fun mod1 =>
      (groupGet (groupByName B) n).filterMap (fun mod2 => emitPair mod1 mod2)))) = _
  simp only [groupGet_groupByName]

theorem mem_mismatched_iff (A B : List ModuleInfo) (p : ModuleInfo × ModuleInfo) :
    p ∈ (compare_modules A B).mismatched ↔
      ∃ a ∈ A, ∃ b ∈ B, a.name = b.name ∧ a.version = b.version ∧
        a.build_time ≠ b.build_time ∧ p = orderPair a b := by
  rw [mismatched_eq]
  constructor
  · intro h
    rcases List.mem_flatMap.mp h with ⟨n, hn, hinner⟩
    rcases List.mem_flatMap.mp hinner with ⟨a, ha, hfm⟩
    rcases List.mem_filterMap.mp hfm with ⟨b, hb, hemit⟩
    rcases List.mem_filter.mp ha with ⟨haA, haname⟩
    rcases List.mem_filter.mp hb with ⟨hbB, hbname⟩
    rcases (emitPair_eq_some_iff a b p).mp hemit with ⟨hv, ht, hp⟩
    have hna : a.name = n := by simpa using haname
    have hnb : b.name = n := by simpa using hbname
    exact ⟨a, haA, b, hbB, by rw [hna, hnb], hv, ht, hp⟩
  · rintro ⟨a, haA, b, hbB, hn, hv, ht, hp⟩
    apply List.mem_flatMap.mpr
    refine ⟨a.name, ?_, ?_⟩
    · apply List.mem_filter.mpr
      constructor
      · have : containsKey (groupByName A) a.name = true :=
          (containsKey_groupByName A a.name).mpr ⟨a, haA, rfl⟩
        rcases (containsKey_iff _ _).mp this with ⟨q, hq, hqe⟩
        exact List.mem_map.mpr ⟨q, hq, hqe⟩
      · exact (containsKey_groupByName B a.name).mpr ⟨b, hbB, hn.symm⟩
    · apply List.mem_flatMap.mpr
      refine ⟨a, List.mem_filter.mpr ⟨haA, by simp⟩, ?_⟩
      apply List.mem_filterMap.mpr
      refine ⟨b, List.mem_filter.mpr ⟨hbB, by simp [hn]⟩, ?_⟩
      exact (emitPair_eq_some_iff a b p).mpr ⟨hv, ht, hp⟩

theorem orderPair_fields (a b : ModuleInfo) (hn : a.name = b.name)
    (hv : a.version = b.version) (ht : a.build_time ≠ b.build_time) :
    (orderPair a b).1.build_time < (orderPair a b).2.build_time ∧
    (orderPair a b).1.name = (orderPair a b).2.name ∧
    (orderPair a b).1.version = (orderPair a b).2.version := by
  unfold orderPair
  by_cases h : a.build_time < b.build_time
  · simp [h, hn, hv]
  · have h2 : b.build_time < a.build_time := by omega
    simp [h, h2, hn.symm, hv.symm]

theorem orderPair_comm (a b : ModuleInfo) (h : a.build_time ≠ b.build_time) :
    orderPair a b = orderPair b a := by
  unfold orderPair
  by_cases h1 : a.build_time < b.build_time
  · have h2 : ¬ b.build_time < a.build_time := by omega
    simp [h1, h2]
  · have h2 : b.build_time < a.build_time := by omega
    simp [h1, h2]

/-! ### Claim theorems: mismatch pairs (C2, C10) -/

/-- C2: every pair `(older, newer)` in `mismatched` has strictly smaller
build time on the left, equal names and equal versions; in particular no
pair with equal build times ever appears. -/
theorem claim_C2_mismatch_ordered (A B : List ModuleInfo)
    (p : ModuleInfo × ModuleInfo) (hp : p ∈ (compare_modules A B).mismatched) :
    p.1.build_time < p.2.build_time ∧ p.1.name = p.2.name ∧
    p.1.version = p.2.version ∧ p.1.build_time ≠ p.2.build_time := by
  rcases (mem_mismatched_iff A B p).mp hp with ⟨a, _, b, _, hn, hv, ht, he⟩
  rcases orderPair_fields a b hn hv ht with ⟨h1, h2, h3⟩
  subst he
  exact ⟨h1, h2, h3, Nat.ne_of_lt h1⟩

/-- Witness for C2 at a concrete input (spec Scenario 2). -/
theorem claim_C2_mismatch_ordered_witness :
    ((⟨"python", "3.9", 10, "python/3.9"⟩ : ModuleInfo),
      (⟨"python", "3.9", 20, "python/3.9"⟩ : ModuleInfo)) ∈
        (compare_modules [⟨"python", "3.9", 10, "python/3.9"⟩]
          [⟨"python", "3.9", 20, "python/3.9"⟩]).mismatched ∧
    (10 : Nat) < 20 :=
  ⟨by decide,
    (claim_C2_mismatch_ordered [⟨"python", "3.9", 10, "python/3.9"⟩]
      [⟨"python", "3.9", 20, "python/3.9"⟩]
      (⟨"python", "3.9", 10, "python/3.9"⟩, ⟨"python", "3.9", 20, "python/3.9"⟩)
      (by decide)).1⟩

/-- C10: the mismatched result is set-equal under swapping the two inputs:
a pair is emitted for `(A, B)` exactly when it is emitted for `(B, A)`,
since each pair is ordered by build time, not by input side. -/
theorem claim_C10_mismatch_swap (A B : List ModuleInfo)
    (p : ModuleInfo × ModuleInfo) :
    p ∈ (compare_modules A B).mismatched ↔ p ∈ (compare_modules B A).mismatched := by
  rw [mem_mismatched_iff, mem_mismatched_iff]
  constructor
  · rintro ⟨a, ha, b, hb, hn, hv, ht, he⟩
    exact ⟨b, hb, a, ha, hn.symm, hv.symm, Ne.symm ht,
      by rw [he, orderPair_comm a b ht]⟩
  · rintro ⟨b, hb, a, ha, hn, hv, ht, he⟩
    exact ⟨a, ha, b, hb, hn.symm, hv.symm, Ne.symm ht,
      by rw [he, orderPair_comm b a ht]⟩

/-! ### C6: the mismatch test is a full cross-join -/

/-- All pairs `emitPair a b` for `b` ranging over records of `B` with the
same base name as `a` (the contribution of one A-side record to the
mismatch cross product). -/
def crossEmit (a : ModuleInfo) (B : List ModuleInfo) :
    List (ModuleInfo × ModuleInfo) :=
  B.filterMap (fun b => if b.name == a.name then emitPair a b else none)

theorem filterMap_filter {α γ : Type} (p : α → Bool) (f : α → Option γ)
    (l : List α) :
    (l.filter p).filterMap f = l.filterMap (fun x => if p x then f x else none) := by
  induction l with
  | nil => rfl
  | cons x l ih => by_cases h : p x <;> simp [List.filter_cons, h, ih, List.filterMap_cons]

theorem map_filter_eq_filterMap {α γ : Type} (p : α → Bool) (g : α → γ)
    (l : List α) :
    (l.filter p).map g = l.filterMap (fun x => if p x then some (g x) else none) := by
  induction l with
  | nil => rfl
  | cons x l ih => by_cases h : p x <;> simp [List.filter_cons, h, ih, List.filterMap_cons]


theorem perm_filter_or (l : List ModuleInfo) (p q : ModuleInfo → Bool) :
    (l.filter (fun x => p x || q x)).Perm
      (l.filter p ++ l.filter (fun x => q x && !(p x))) := by
  induction l with
  | nil => simp
  | cons x l ih =>
    by_cases hp : p x
    · simpa [List.filter_cons, hp] using ih.cons x
    · by_cases hq : q x
      · simp only [List.filter_cons, hp, hq]
        simpa using (ih.cons x).trans List.perm_middle.symm
      · simpa [List.filter_cons, hp, hq] using ih

theorem perm_name_partition (ns : List String) (A : List ModuleInfo)
    (h : ns.Nodup) :
    (ns.flatMap (fun n => A.filter (fun m => m.name == n))).Perm
      (A.filter (fun a => ns.contains a.name)) := by
  induction ns generalizing A with
  | nil => simp
  | cons n ns ih =>
    rw [List.nodup_cons] at h
    have htail : ∀ k ∈ ns, A.filter (fun m => m.name == k) =
        (A.filter (fun a => !(a.name == n))).filter (fun m => m.name == k) := by
      intro k hk
      rw [List.filter_filter]
      apply List.filter_congr
      intro a _
      by_cases ha : a.name = k
      · have hkn : ¬ k = n := fun he => h.1 (he ▸ hk)
        have han : ¬ a.name = n := by rw [ha]; exact hkn
        simp [ha, han, hkn]
      · simp [ha]
    have e1 : (n :: ns).flatMap (fun k => A.filter (fun m => m.name == k)) =
        A.filter (fun m => m.name == n) ++
          ns.flatMap (fun k =>
            (A.filter (fun a => !(a.name == n))).filter (fun m => m.name == k)) := by
      rw [List.flatMap_cons, List.flatMap_congr htail]
    have e3 : A.filter (fun a => (n :: ns).contains a.name) =
        A.filter (fun a => (a.name == n) || ns.contains a.name) := by
      apply List.filter_congr
      intro a _
      by_cases hn : a.name = n <;> simp [hn, List.contains_cons]
    rw [e1, e3]
    refine List.Perm.trans
      ((ih (A.filter (fun a => !(a.name == n))) h.2).append_left _) ?_
    have e2 : (A.filter (fun a => !(a.name == n))).filter
        (fun a => ns.contains a.name) =
        A.filter (fun a => ns.contains a.name && !(a.name == n)) := by
      rw [List.filter_filter]
    rw [e2]
    exact (perm_filter_or A (fun m => m.name == n)
      (fun a => ns.contains a.name)).symm

theorem flatMap_filter_of_nil {γ : Type} (l : List ModuleInfo)
    (p : ModuleInfo → Bool) (h : ModuleInfo → List γ)
    (hnil : ∀ a ∈ l, p a = false → h a = []) :
    (l.filter p).flatMap h = l.flatMap h := by
  induction l with
  | nil => rfl
  | cons x l ih =>
    by_cases hp : p x
    · simp only [List.filter_cons, hp, if_true, List.flatMap_cons]
      rw [ih (fun a ha => hnil a (List.mem_cons_of_mem x ha))]
    · have hx : h x = [] := hnil x (List.mem_cons_self x l) (by simpa using hp)
      simp only [List.filter_cons, hp, if_false, List.flatMap_cons, hx, List.nil_append]
      exact ih (fun a ha => hnil a (List.mem_cons_of_mem x ha))

theorem inner_eq_crossEmit (A B : List ModuleInfo) (n : String) :
    (A.filter (fun m => m.name == n)).flatMap (fun mod1 =>
      (B.filter (fun m => m.name == n)).filterMap (fun mod2 => emitPair mod1 mod2)) =
    (A.filter (fun m => m.name == n)).flatMap (fun mod1 => crossEmit mod1 B) := by
  apply List.flatMap_congr
  intro a ha
  have hname : a.name = n := by simpa using (List.mem_filter.mp ha).2
  subst hname
  rw [crossEmit, filterMap_filter]

theorem mismatched_perm_crossEmit (A B : List ModuleInfo) :
    (compare_modules A B).mismatched.Perm
      (A.flatMap (fun a => crossEmit a B)) := by
  rw [mismatched_eq]
  rw [List.flatMap_congr (fun n _ => inner_eq_crossEmit A B n)]
  rw [← List.flatMap_assoc]
  have hns : ((((groupByName A).map (fun p => p.1)).filter
      (fun n => containsKey (groupByName B) n))).Nodup :=
    (List.filter_sublist _).nodup (keys_groupByName_nodup A)
  have hperm := (perm_name_partition
    (((groupByName A).map (fun p => p.1)).filter
      (fun n => containsKey (groupByName B) n)) A hns).flatMap_right
    (fun mod1 => crossEmit mod1 B)
  refine hperm.trans ?_
  have hnil : ∀ a ∈ A,
      ((((groupByName A).map (fun p => p.1)).filter
        (fun n => containsKey (groupByName B) n)).contains a.name) = false →
      crossEmit a B = [] := by
    intro a ha hc
    have hnotmem : a.name ∉ (((groupByName A).map (fun p => p.1)).filter
        (fun n => containsKey (groupByName B) n)) := by simpa using hc
    have hB : containsKey (groupByName B) a.name = false := by
      rcases Bool.eq_false_or_eq_true (containsKey (groupByName B) a.name) with hb | hb
      swap
      · exact hb
      · exfalso
        apply hnotmem
        apply List.mem_filter.mpr
        constructor
        · have h1 : containsKey (groupByName A) a.name = true :=
            (containsKey_groupByName A a.name).mpr ⟨a, ha, rfl⟩
          rcases (containsKey_iff _ _).mp h1 with ⟨q, hq, hqe⟩
          exact List.mem_map.mpr ⟨q, hq, hqe⟩
        · simp [hb]
    apply List.filterMap_eq_nil_iff.mpr
    intro b hb
    have hne : ¬ b.name = a.name := by
      intro he
      have : containsKey (groupByName B) a.name = true :=
        (containsKey_groupByName B a.name).mpr ⟨b, hb, he⟩
      rw [hB] at this
      cases this
    simp [hne]
  rw [flatMap_filter_of_nil A _ _ hnil]

theorem crossEmit_eq_filtered_pairs (A B : List ModuleInfo) :
    ((A.flatMap (fun a => B.map (fun b => (a, b)))).filter
        (fun q => q.1.name == q.2.name && q.1.version == q.2.version &&
          q.1.build_time != q.2.build_time)).map (fun q => orderPair q.1 q.2) =
    A.flatMap (fun a => crossEmit a B) := by
  rw [List.filter_flatMap, List.map_flatMap]
  apply List.flatMap_congr
  intro a _
  rw [List.filter_map, List.map_map, map_filter_eq_filterMap]
  unfold crossEmit
  congr 1
  funext b
  by_cases hn : a.name = b.name
  · have hb1 : (a.name == b.name) = true := by simp [hn]
    have hb2 : (b.name == a.name) = true := by simp [hn]
    simp only [Function.comp, hb1, hb2, Bool.true_and, if_true]
    rfl
  · have hn' : ¬ b.name = a.name := fun he => hn he.symm
    have hb1 : (a.name == b.name) = false := by simp [hn]
    have hb2 : (b.name == a.name) = false := by simp [hn']
    simp only [Function.comp, hb1, hb2, Bool.false_and, if_false]
    simp

/-- C6: the mismatch test is a full cross-join per shared base name: up to
order, `mismatched` is exactly one `orderPair`-ordered entry per pair in the
cross product `A × B` whose base names agree, whose versions agree and whose
build times differ — so duplicated `name`+`version` catalog entries each
contribute one pair per matching counterpart. -/
theorem claim_C6_full_cross_join (A B : List ModuleInfo) :
    (compare_modules A B).mismatched.Perm
      (((A.flatMap (fun a => B.map (fun b => (a, b)))).filter
          (fun q => q.1.name == q.2.name && q.1.version == q.2.version &&
            q.1.build_time != q.2.build_time)).map (fun q => orderPair q.1 q.2)) := by
  rw [crossEmit_eq_filtered_pairs]
  exact mismatched_perm_crossEmit A B

/-! ### The Module Lister: record construction (`get_modules_list`) -/

/-- Python `str.split(sep)` for a one-character separator: split on every
occurrence, keeping empty segments; the empty string gives `[[]]`. -/
def pySplit (c : Char) : List Char → List (List Char)
  | [] => [[]]
  | x :: xs =>
    if x = c then [] :: pySplit c xs
    else
      match pySplit c xs with
      | r :: rs => (x :: r) :: rs
      | [] => [[x]]

/-- Lines 74-80: `parts = full_name.split('/')`; with at least two parts the
record gets `(parts[0], parts[1])`, otherwise `(full_name, "unknown")`. -/
def splitFullName (full_name : String) : String × String :=
  match pySplit '/' full_name.data with
  | p0 :: p1 :: _ => (String.mk p0, String.mk p1)
  | _ => (full_name, "unknown")

/-- The six fields of a Python `datetime` as produced by
`strptime(_, '%Y-%m-%d %H:%M:%S')`. -/
structure DateTime6 where
  year : Nat
  month : Nat
  day : Nat
  hour : Nat
  minute : Nat
  second : Nat
deriving DecidableEq, Repr

def isLeapYear (y : Nat) : Bool :=
  y % 4 == 0 && (y % 100 != 0 || y % 400 == 0)

def daysInMonth (y mo : Nat) : Nat :=
  if mo == 2 then (if isLeapYear y then 29 else 28)
  else if mo == 4 || mo == 6 || mo == 9 || mo == 11 then 30
  else 31

/-- The range validation performed by the `datetime` constructor; values
outside these bounds raise `ValueError`, which line 70-71 turns into the
sentinel. -/
def validDateTime (t : DateTime6) : Prop :=
  1 ≤ t.year ∧ t.year ≤ 9999 ∧ 1 ≤ t.month ∧ t.month ≤ 12 ∧
  1 ≤ t.day ∧ t.day ≤ daysInMonth t.year t.month ∧
  t.hour ≤ 23 ∧ t.minute ≤ 59 ∧ t.second ≤ 59

instance (t : DateTime6) : Decidable (validDateTime t) := by
  unfold validDateTime
  infer_instance

def digitVal (c : Char) : Nat := c.toNat - 48

/-- One or two ASCII digits (`strptime`'s one-to-two-digit numeric fields;
two digits are consumed whenever two are available). -/
def readTwo : List Char → Option (Nat × List Char)
  | c1 :: c2 :: rest =>
    if c1.isDigit then
      if c2.isDigit then some (digitVal c1 * 10 + digitVal c2, rest)
      else some (digitVal c1, c2 :: rest)
    else none
  | [c1] => if c1.isDigit then some (digitVal c1, []) else none
  | [] => none

/-- Exactly four ASCII digits (`%Y`). -/
def readYear4 : List Char → Option (Nat × List Char)
  | c1 :: c2 :: c3 :: c4 :: rest =>
    if c1.isDigit && c2.isDigit && c3.isDigit && c4.isDigit then
      some (((digitVal c1 * 10 + digitVal c2) * 10 + digitVal c3) * 10
        + digitVal c4, rest)
    else none
  | _ => none

def expectCh (c : Char) : List Char → Option (List Char)
  | x :: rest => if x = c then some rest else none
  | [] => none

/-- `datetime.datetime.strptime(s, '%Y-%m-%d %H:%M:%S')` (line 67): four
digits for the year, one or two digits for the other fields, the literal
separators, the whole string consumed, and the `datetime` range validation;
any failure is `none` (Python's `ValueError`). -/
def strptimeYmdHms (l : List Char) : Option DateTime6 := do
  let (y, r0) ← readYear4 l
  let r1 ← expectCh '-' r0
  let (mo, r2) ← readTwo r1
  let r3 ← expectCh '-' r2
  let (d, r4) ← readTwo r3
  let r5 ← expectCh ' ' r4
  let (h, r6) ← readTwo r5
  let r7 ← expectCh ':' r6
  let (mi, r8) ← readTwo r7
  let r9 ← expectCh ':' r8
  let (s, r10) ← readTwo r9
  if r10 = [] then
    let t : DateTime6 := ⟨y, mo, d, h, mi, s⟩
    if validDateTime t then some t else none
  else none

/-- Order-preserving injection of a datetime's six fields into `Nat`
(every field except the leading year is below 100). -/
def encodeDT (t : DateTime6) : Nat :=
  ((((t.year * 100 + t.month) * 100 + t.day) * 100 + t.hour) * 100 + t.minute) * 100
    + t.second

/-- `datetime.datetime(1970, 1, 1)`, the sentinel epoch (lines 69 and 71). -/
def epochN : Nat := encodeDT ⟨1970, 1, 1, 0, 0, 0⟩

/-- Lines 63-71: unless the lookup output is the literal `"Unknown"`, parse
`build_time_str.split('.')[0]` with `strptime`; the `"Unknown"` case and any
parse failure (`ValueError`) give the sentinel epoch. -/
def parseBuildTime (build_time_str : String) : Nat :=
  if build_time_str ≠ "Unknown" then
    match strptimeYmdHms ((pySplit '.' build_time_str.data).headD []) with
    | some t => encodeDT t
    | none => epochN
  else epochN

/-- Construction of one `ModuleInfo` record from a catalog line and the raw
build-time lookup output (the loop body of lines 58-82). -/
def mkModule (full_name build_time_str : String) : ModuleInfo :=
  let build_time := parseBuildTime build_time_str
  let nv := splitFullName full_name
  { name := nv.1, version := nv.2, build_time := build_time, full_name := full_name }

/-- `get_modules_list` (lines 50-84), with the remote interaction abstracted
as the list of (catalog line, build-time lookup output) pairs it observes. -/
def get_modules_list (raw : List (String × String)) : List ModuleInfo :=
  raw.map (fun r => mkModule r.1 r.2)

/-- Follows the words of claim C1 (spec §3): `name` is the text before the
first `/` and `version` is everything after the first `/`; with no `/`,
`name = fullName` and `version = "unknown"`. -/
def specSplitFullName (full_name : String) : String × String :=
  if full_name.data.contains '/' then
    (String.mk (full_name.data.takeWhile (fun x => x != '/')),
     String.mk ((full_name.data.dropWhile (fun x => x != '/')).drop 1))
  else (full_name, "unknown")

/-- Follows the words of claim C4 (spec §4.1): fractional seconds and a
timezone suffix, when present, are each discarded before parsing.  A
timezone suffix is modelled as a trailing `" +HHMM"` or `" -HHMM"`. -/
def specStripTz (l : List Char) : List Char :=
  match l.reverse with
  | d4 :: d3 :: d2 :: d1 :: sgn :: ' ' :: rest =>
    if (sgn = '+' ∨ sgn = '-') ∧ d1.isDigit ∧ d2.isDigit ∧ d3.isDigit ∧ d4.isDigit
    then rest.reverse
    else l
  | _ => l

/-- The build-time parse as claim C4 words it: strip the timezone suffix and
the fractional seconds, then parse; failures degrade to the sentinel. -/
def specBuildTime (build_time_str : String) : Nat :=
  if build_time_str ≠ "Unknown" then
    match strptimeYmdHms
        ((specStripTz build_time_str.data).takeWhile (fun x => x != '.')) with
    | some t => encodeDT t
    | none => epochN
  else epochN

/-! ### Lister lemmas and claims C1, C4, C5 -/

theorem pySplit_structure (c : Char) (l : List Char) :
    pySplit c l =
      l.takeWhile (fun x => x != c) ::
        (match l.dropWhile (fun x => x != c) with
         | [] => []
         | _ :: rest => pySplit c rest) := by
  induction l with
  | nil => rfl
  | cons x xs ih =>
    by_cases h : x = c
    · simp [pySplit, h, List.takeWhile_cons, List.dropWhile_cons]
    · simp [pySplit, h, ih, List.takeWhile_cons, List.dropWhile_cons]

theorem pySplit_headD (c : Char) (l : List Char) :
    (pySplit c l).headD [] = l.takeWhile (fun x => x != c) := by
  rw [pySplit_structure]
  rfl

theorem splitFullName_eq (full : String) :
    splitFullName full =
      if full.data.contains '/' then
        (String.mk (full.data.takeWhile (fun x => x != '/')),
         String.mk (((full.data.dropWhile (fun x => x != '/')).drop 1).takeWhile
           (fun x => x != '/')))
      else (full, "unknown") := by
  unfold splitFullName
  by_cases hc : full.data.contains '/'
  · have hm : '/' ∈ full.data := by simpa using hc
    rcases hd : full.data.dropWhile (fun x => x != '/') with _ | ⟨y, rest⟩
    · exfalso
      have := List.dropWhile_eq_nil_iff.mp hd '/' hm
      simp at this
    · rw [pySplit_structure, hd]
      dsimp only
      rw [pySplit_structure]
      simp [hm, hd]
  · have hm : '/' ∉ full.data := by simpa using hc
    have hdw : full.data.dropWhile (fun x => x != '/') = [] := by
      apply List.dropWhile_eq_nil_iff.mpr
      intro x hx
      have hxe : ¬ x = '/' := fun he => hm (he ▸ hx)
      simp [hxe]
    rw [pySplit_structure, hdw]
    simp [hm]

/-- C1 counterexample: on the catalog line `"a/b/c"` the code sets `version`
to the second `/`-segment `"b"`, not to everything after the first `/`
(`"b/c"`) as the claim states. -/
theorem claim_C1_counterexample :
    (mkModule "a/b/c" "Unknown").version = "b" ∧
    (specSplitFullName "a/b/c").2 = "b/c" ∧
    (mkModule "a/b/c" "Unknown").version ≠ (specSplitFullName "a/b/c").2 :=
  ⟨by decide, by decide, by decide⟩

/-- C1 (amended): `name` is the text before the first `/`; `version` is the
second `/`-separated segment — the text strictly between the first and second
`/`, or everything after the first `/` when there is no second one; a line
with no `/` gets `name = fullName` and `version = "unknown"`. -/
theorem claim_C1_split (full_name bt : String) :
    (mkModule full_name bt).full_name = full_name ∧
    (mkModule full_name bt).name =
      (if '/' ∈ full_name.data then
        String.mk (full_name.data.takeWhile (fun x => x != '/'))
       else full_name) ∧
    (mkModule full_name bt).version =
      (if '/' ∈ full_name.data then
        String.mk (((full_name.data.dropWhile (fun x => x != '/')).drop 1).takeWhile
          (fun x => x != '/'))
       else "unknown") := by
  refine ⟨rfl, ?_, ?_⟩
  · show (splitFullName full_name).1 = _
    rw [splitFullName_eq]
    by_cases hc : '/' ∈ full_name.data <;> simp [hc]
  · show (splitFullName full_name).2 = _
    rw [splitFullName_eq]
    by_cases hc : '/' ∈ full_name.data <;> simp [hc]

/-- C4 counterexample: on `"2024-01-02 03:04:05 +0000"` — a timezone suffix
with no fractional seconds — the code does not discard the timezone; the
parse fails and the sentinel epoch is recorded, while the claimed behaviour
(discard the timezone suffix whenever present, then parse) succeeds. -/
theorem claim_C4_counterexample :
    parseBuildTime "2024-01-02 03:04:05 +0000" = epochN ∧
    specBuildTime "2024-01-02 03:04:05 +0000" = encodeDT ⟨2024, 1, 2, 3, 4, 5⟩ ∧
    parseBuildTime "2024-01-02 03:04:05 +0000" ≠
      specBuildTime "2024-01-02 03:04:05 +0000" :=
  ⟨by decide, by decide, by decide⟩

/-- C4 (amended): the build-time parse keeps exactly the text before the
first `.` — discarding fractional seconds together with anything after them,
including a timezone suffix — and parses it with `%Y-%m-%d %H:%M:%S`; every
failure (including a timezone suffix not preceded by fractional seconds, and
the `"Unknown"` lookup result) yields the sentinel epoch, and no error
reaches the caller: the function is total. -/
theorem claim_C4_parse_degrades (s : String) :
    parseBuildTime s =
      (match strptimeYmdHms (s.data.takeWhile (fun x => x != '.')) with
       | some t => encodeDT t
       | none => epochN) := by
  unfold parseBuildTime
  by_cases hu : s = "Unknown"
  · subst hu
    decide
  · simp only [hu, ne_eq, not_false_eq_true, if_true]
    rw [pySplit_headD]

/-- C5: a build-time lookup returning the literal `"Unknown"` yields the
sentinel epoch 1970-01-01T00:00:00, and the resulting record is classified by
the comparator through exactly the same membership conditions as any other
record, in both the presence test and the mismatch test. -/
theorem claim_C5_unknown_sentinel (full : String) (A B : List ModuleInfo) :
    (mkModule full "Unknown").build_time = epochN ∧
    ((mkModule full "Unknown") ∈ (compare_modules A B).onlyA ↔
      ((mkModule full "Unknown").full_name, mkModule full "Unknown") ∈ buildDict A ∧
        ¬ ∃ b ∈ B, b.full_name = (mkModule full "Unknown").full_name) ∧
    (∀ p, p ∈ (compare_modules A B).mismatched ↔
      ∃ a ∈ A, ∃ b ∈ B, a.name = b.name ∧ a.version = b.version ∧
        a.build_time ≠ b.build_time ∧ p = orderPair a b) :=
  ⟨rfl, mem_onlyA_iff A B _, fun p => mem_mismatched_iff A B p⟩
